import Mathlib

/-!
Verification of the order-book synchronization service (`binanceCOB.js`)
and the kline concentrator (`binanceWSC.js`).

Modelling conventions.  The JavaScript code keeps prices and quantities as
decimal strings; it compares prices by string equality, tests quantities
with a numeric coercion, and sorts by the parsed numeric value.  Decimal
strings are modelled here by their exact rational values: equality of
canonically-formatted decimal strings corresponds to equality in ℚ and the
numeric comparators correspond to the order on ℚ.  Sequence ids are
integers.  The single-threaded event loop is modelled by explicit event
lists: a handler runs to completion, and asynchronous callbacks (timers,
promise continuations) are separate events.
-/

namespace COB

/-- One price level, the pair [priceStr, qtyStr] of the feed. -/
structure Level where
  price : ℚ
  qty : ℚ
deriving DecidableEq, Repr

/-- The in-memory book replica `{ lastUpdateId, bids, asks }` stored in
`this.orderBooks[symbol]`. -/
structure Book where
  lastUpdateId : ℤ
  bids : List Level
  asks : List Level
deriving DecidableEq, Repr

/-- A Binance depthUpdate message `{ U, u, b, a }`. -/
structure DepthUpdate where
  U : ℤ
  u : ℤ
  b : List Level
  a : List Level
deriving DecidableEq, Repr

/-- One step of the per-level loop in `_applyDeltas`:
`const index = side.findIndex(([p]) => p === price);`
`if (+qty === 0) { if (index > -1) side.splice(index, 1); }`
`else if (index === -1) { side.push([price, qty]); }`
`else { side[index][1] = qty; }`
The first occurrence of the price is removed or overwritten; an absent
price is appended at the end (when qty is nonzero). -/
def applyChange : List Level → Level → List Level
  | [], c => if c.qty = 0 then [] else [c]
  | l :: rest, c =>
    if l.price = c.price then
      if c.qty = 0 then rest else { price := l.price, qty := c.qty } :: rest
    else
      l :: applyChange rest c

/-- Comparator for `book.bids.sort((a, b) => parseFloat(b[0]) - parseFloat(a[0]))`:
descending by price. -/
def bidLe (x y : Level) : Bool := decide (y.price ≤ x.price)

/-- Comparator for `book.asks.sort((a, b) => parseFloat(a[0]) - parseFloat(b[0]))`:
ascending by price. -/
def askLe (x y : Level) : Bool := decide (x.price ≤ y.price)

/-- `_applyDeltas(book, bids, asks)`: applies each changed level to the
matching side, then sorts bids descending and asks ascending.  It does not
touch `lastUpdateId` (the caller sets it). -/
def applyDeltas (book : Book) (bids asks : List Level) : Book :=
  { book with
    bids := (List.foldl applyChange book.bids bids).mergeSort bidLe
    asks := (List.foldl applyChange book.asks asks).mergeSort askLe }

/-- Outcome of one depthUpdate message, mirroring the three branches of the
`ws.on('message')` handler in `_connectDepthWS`. -/
inductive DepthAction where
  /-- the continuity test passed: deltas applied and a depth_update broadcast -/
  | applied
  /-- `data.U > book.lastUpdateId + 1`: out-of-sync warning, `_resetOrderBook`
  started (its promise later runs `_broadcastResync`) -/
  | gapResync
  /-- neither branch taken: the message is silently dropped -/
  | stale
deriving DecidableEq, Repr

/-- The continuity check and branch selection of `_connectDepthWS`
(lines 287-302): `if (data.U <= book.lastUpdateId + 1 && data.u >= book.lastUpdateId + 1)`
applies the deltas and sets `book.lastUpdateId = data.u`; `else if (data.U > book.lastUpdateId + 1)`
leaves the book alone and starts a resync; otherwise nothing happens. -/
def processDepthUpdate (book : Book) (d : DepthUpdate) : Book × DepthAction :=
  if d.U ≤ book.lastUpdateId + 1 ∧ book.lastUpdateId + 1 ≤ d.u then
    ({ applyDeltas book d.b d.a with lastUpdateId := d.u }, .applied)
  else if book.lastUpdateId + 1 < d.U then
    (book, .gapResync)
  else
    (book, .stale)

/-- A connected local WebSocket client as the broadcaster sees it: the
symbol the connection was tagged with (`ws.symbol`) and whether its
`readyState` is `WebSocket.OPEN`. -/
structure Client where
  id : ℕ
  symbol : String
  isOpen : Bool
deriving DecidableEq, Repr

/-- `_resetOrderBook` success path: the REST depth snapshot
`{ lastUpdateId, bids, asks }` replaces the stored book wholesale
(`this.orderBooks[symbol] = { lastUpdateId, bids, asks }`), with no sorting
or filtering of the received sides. -/
def resetOrderBook (snapshot : Book) : Book := snapshot

/-- `_broadcastResync(symbol)`: every client of `localWSS` whose tagged
symbol matches and whose readyState is OPEN receives one message
`{ type: 'resync', snapshot: this.orderBooks[symbol] }`; the result lists
each recipient id with the snapshot it was sent. -/
def broadcastResync (clients : List Client) (sym : String) (book : Book) :
    List (ℕ × Book) :=
  (clients.filter (fun c => c.symbol == sym && c.isOpen)).map (fun c => (c.id, book))

/-- The prices present on a side, in order. -/
def pricesOf (side : List Level) : List ℚ := side.map Level.price

/-- The quantity stored at the first occurrence of a price, if any
(`side.findIndex(([p]) => p === price)` finds the first match). -/
def qtyAt (side : List Level) (p : ℚ) : Option ℚ :=
  (side.find? (fun l => l.price == p)).map Level.qty

/-- Strict bid order: the later level is strictly cheaper. -/
def bidGt (x y : Level) : Prop := y.price < x.price

/-- Strict ask order: the later level is strictly dearer. -/
def askLt (x y : Level) : Prop := x.price < y.price

instance : IsTrans Level bidGt := ⟨fun _ _ _ h1 h2 => lt_trans h2 h1⟩

instance : IsTrans Level askLt := ⟨fun _ _ _ h1 h2 => lt_trans h1 h2⟩

instance : DecidableRel bidGt :=
  fun x y => inferInstanceAs (Decidable (y.price < x.price))

instance : DecidableRel askLt :=
  fun x y => inferInstanceAs (Decidable (x.price < y.price))

/-- Bids strictly descending by price (best bid first, no duplicates). -/
def strictDesc (side : List Level) : Prop := side.Chain' bidGt

/-- Asks strictly ascending by price (best ask first, no duplicates). -/
def strictAsc (side : List Level) : Prop := side.Chain' askLt

/-- The sort invariant of a whole book. -/
def sortedBook (b : Book) : Prop := strictDesc b.bids ∧ strictAsc b.asks

/-- Pairwise-distinct prices on a side. -/
def distinctPrices (side : List Level) : Prop :=
  side.Pairwise (fun a b => a.price ≠ b.price)

/-- A replica mutation: a wholesale snapshot replacement performed by
`_resetOrderBook`, or one `_applyDeltas(book, bids, asks)` call. -/
inductive BookOp where
  | snap (s : Book)
  | delta (bids asks : List Level)
deriving DecidableEq, Repr

/-- Apply one replica mutation, as the service does. -/
def applyOp (book : Book) : BookOp → Book
  | .snap s => resetOrderBook s
  | .delta bs as => applyDeltas book bs as

/-- A stored history snapshot, as built by `_saveSnapshot`:
`{ timestamp, lastUpdateId, bids, asks }` (sides already truncated to the
top 20 levels when stored). -/
structure Snap where
  timestamp : ℤ
  lastUpdateId : ℤ
  bids : List Level
  asks : List Level
deriving DecidableEq, Repr

/-- Newer-or-equal first between adjacent snapshots. -/
def tsGe (a b : Snap) : Prop := b.timestamp ≤ a.timestamp

/-- Older-or-equal first between adjacent snapshots. -/
def tsLe (a b : Snap) : Prop := a.timestamp ≤ b.timestamp

instance : IsTrans Snap tsGe := ⟨fun _ _ _ h1 h2 => le_trans h2 h1⟩

instance : IsTrans Snap tsLe := ⟨fun _ _ _ h1 h2 => le_trans h1 h2⟩

instance : DecidableRel tsGe :=
  fun x y => inferInstanceAs (Decidable (y.timestamp ≤ x.timestamp))

instance : DecidableRel tsLe :=
  fun x y => inferInstanceAs (Decidable (x.timestamp ≤ y.timestamp))

/-- Snapshots ordered newest first. -/
def newestFirst (l : List Snap) : Prop := l.Chain' tsGe

/-- Snapshots ordered oldest first. -/
def oldestFirst (l : List Snap) : Prop := l.Chain' tsLe

/-- The deduplication in `getHistoricalData`:
`combined.filter((item, index, arr) => arr.findIndex(x => x.timestamp === item.timestamp) === index)`
keeps the first occurrence of each timestamp, preserving order. -/
def dedupTS (l : List Snap) : List Snap :=
  l.foldl
    (fun acc s => if acc.any (fun x => x.timestamp == s.timestamp) then acc else acc ++ [s])
    []

/-- Comparator for `.sort((a, b) => b.timestamp - a.timestamp)`: newest
first. -/
def tsDesc (a b : Snap) : Bool := decide (b.timestamp ≤ a.timestamp)

/-- `getHistoricalData(symbol, limit)` of `binanceCOB.js`: starts from the
in-memory list (kept newest first by `_saveSnapshot`'s unshift); when it
holds fewer than `limit` entries and the disk file parses as an array, the
two are concatenated, deduplicated by timestamp and sorted newest first;
finally `slice(0, limit)` returns at most `limit` snapshots, newest first.
`disk = none` models a missing or unparseable disk file. -/
def getHistoricalData (mem : List Snap) (disk : Option (List Snap))
    (limit : ℕ) : List Snap :=
  (if mem.length < limit then
      match disk with
      | some d => (dedupTS (mem ++ d)).mergeSort tsDesc
      | none => mem
    else mem).take limit

/-- A JSON message sent to an order-book subscriber, by `type`. -/
inductive OutMsg where
  | historical (sequence total : ℕ) (snapshot : Snap)
  | historicalComplete
  | liveSnapshot (snapshot : Book)
  | depthUpdate (d : DepthUpdate)
  | resync (snapshot : Book)
deriving DecidableEq, Repr

/-- The two message types a subscriber receives from the live path. -/
def isLiveMsg : OutMsg → Bool
  | .depthUpdate _ => true
  | .resync _ => true
  | _ => false

/-- The backfill block of `_handleClient`: the fetched snapshots are
reversed (oldest first) and sent as historical messages with
`sequence: index + 1` and `total: reversedSnapshots.length`, followed by
one historical_complete marker. -/
def backfillMsgs (snaps : List Snap) : List OutMsg :=
  (snaps.reverse.enum.map fun is =>
    OutMsg.historical (is.1 + 1) snaps.reverse.length is.2) ++
    [.historicalComplete]

/-- The full message sequence a subscriber connecting with `limit > 0` to a
tracked symbol observes.  `_handleClient` runs synchronously through the
historical sends and the historical_complete marker, then schedules
`_sendSnapshotToClient` on a 50 ms `setTimeout`; since the client was
tagged for live updates (`ws.symbol = symbol`) before the backfill, any
depth_update or resync broadcast processed by the event loop during that
pause is delivered before the live_snapshot.  `pending` is that list of
broadcasts, `live` the broadcasts after the live_snapshot. -/
def clientTrace (mem : List Snap) (disk : Option (List Snap)) (limit : ℕ)
    (pending : List OutMsg) (book : Book) (live : List OutMsg) : List OutMsg :=
  backfillMsgs (getHistoricalData mem disk limit) ++ pending ++
    [.liveSnapshot book] ++ live

/-- The ordering claimed for a backfilled subscriber: N historical messages
with sequence 1..N and total N, then historical_complete, then immediately
one live_snapshot, then only live (depth_update/resync) messages. -/
def claimedBackfillOrder (trace : List OutMsg) (N : ℕ) : Prop :=
  (∀ i < N, ∃ s, trace.get? i = some (.historical (i + 1) N s)) ∧
  trace.get? N = some .historicalComplete ∧
  (∃ b, trace.get? (N + 1) = some (.liveSnapshot b)) ∧
  ∀ j m, N + 2 ≤ j → trace.get? j = some m → isLiveMsg m = true

/-- An event seen by a symbol's depth message loop: a delta from the stream
or the completion of an in-flight `_resetOrderBook` snapshot fetch. -/
inductive FeedEv where
  | delta (d : DepthUpdate)
  | fetchComplete (snapshot : Book)
deriving DecidableEq, Repr

/-- One event step: a delta goes through the depth handler (a gap outcome
starts one `_resetOrderBook` fetch); a fetch completion replaces the book.
Returns the new book and how many snapshot fetches the event started. -/
def stepEv (book : Book) : FeedEv → Book × ℕ
  | .delta d =>
    let r := processDepthUpdate book d
    (r.1, if r.2 = .gapResync then 1 else 0)
  | .fetchComplete s => (resetOrderBook s, 0)

/-- Run a list of feed events, accumulating the number of snapshot fetches
started. -/
def runEvents (book : Book) (evs : List FeedEv) : Book × ℕ :=
  evs.foldl (fun acc e => ((stepEv acc.1 e).1, acc.2 + (stepEv acc.1 e).2)) (book, 0)

/-- A subscriber connection as `_broadcastLiveUpdate` sees it; `sendFails`
models `client.send(message)` throwing for this connection. -/
structure Sub where
  id : ℕ
  symbol : String
  isOpen : Bool
  sendFails : Bool
deriving DecidableEq, Repr

/-- `_broadcastLiveUpdate(symbol, depthUpdate)`: pre-filters the clients
whose tagged symbol matches and whose readyState is OPEN, pre-serializes
one message, then sends inside a per-client try/catch whose catch only
logs asynchronously.  No client is closed or removed on failure.  Returns
the ids that were sent the message and the client registry afterwards. -/
def broadcastLiveUpdate (clients : List Sub) (sym : String) : List ℕ × List Sub :=
  let symbolClients := clients.filter fun c => c.symbol == sym && c.isOpen
  ((symbolClients.filter fun c => !c.sendFails).map Sub.id, clients)

/-- A kline message as the concentrator rewrites it: the top-level `s`
field, the nested `k.s` field when the payload carries a kline object, and
the rest of the JSON, which masquerading never touches. -/
structure KMsg where
  s : String
  ks : Option String
  rest : String
deriving DecidableEq, Repr

/-- The masquerade rewrite of `binanceWSC.js`:
`masqueraded.s = 'XRPLUSD'; if (masqueraded.k && masqueraded.k.s) masqueraded.k.s = 'XRPLUSD';` -/
def masqueradeMsg (m : KMsg) : KMsg :=
  { m with s := "XRPLUSD", ks := m.ks.map fun _ => "XRPLUSD" }

/-- JavaScript `toUpperCase()` on the ASCII symbol strings the service
handles: uppercase every character. -/
def upperStr (s : String) : String := ⟨s.data.map Char.toUpper⟩

/-- The subscription record stored in `this.clients` (interval and limit
omitted: masquerading does not read them). -/
structure PluginSub where
  symbol : String
  masquerade : Bool
deriving DecidableEq, Repr

/-- The symbol rewrite at the top of `handlePluginConnection`: a client
asking for XRPLUSD (case-insensitively) is registered against the real
symbol XRPUSDT with the masquerade flag; any other request is stored
verbatim without the flag. -/
def registerSub (symbolParam : String) : PluginSub :=
  if upperStr symbolParam = "XRPLUSD" then ⟨"XRPUSDT", true⟩
  else ⟨symbolParam, false⟩

/-- A connected plugin client with its stored subscription. -/
structure PluginClient where
  id : ℕ
  sub : PluginSub
  isOpen : Bool
deriving DecidableEq, Repr

/-- `broadcastToClientsForSymbol(symbol, message)`: every open client whose
subscription symbol matches case-insensitively receives the message,
masqueraded when its subscription carries the flag and verbatim
otherwise. -/
def broadcastKline (clients : List PluginClient) (sym : String) (m : KMsg) :
    List (ℕ × KMsg) :=
  (clients.filter fun c => upperStr c.sub.symbol == upperStr sym && c.isOpen).map
    fun c => (c.id, if c.sub.masquerade then masqueradeMsg m else m)

/-- The historical send loop of `handlePluginConnection`: each line goes to
the client masqueraded when the flag is set and verbatim otherwise. -/
def historicalSend (masquerade : Bool) (lines : List KMsg) : List KMsg :=
  lines.map fun m => if masquerade then masqueradeMsg m else m

end COB

namespace COB

theorem applyChange_eq_of_not_mem {side : List Level} {p : ℚ} (q : ℚ)
    (h : p ∉ pricesOf side) (hq : q = 0) : applyChange side ⟨p, q⟩ = side := by
  induction side with
  | nil => simp [applyChange, hq]
  | cons l rest ih =>
    simp only [pricesOf, List.map_cons, List.mem_cons, not_or] at h
    have hne : ¬ l.price = p := fun hc => h.1 hc.symm
    simp [applyChange, hne, ih h.2]

theorem applyChange_zero_sublist (side : List Level) (p : ℚ) :
    (applyChange side ⟨p, 0⟩).Sublist side := by
  induction side with
  | nil => simp [applyChange]
  | cons l rest ih =>
    by_cases hl : l.price = p
    · simp only [applyChange, hl, if_pos rfl, if_pos]
      exact (List.sublist_cons_self l rest)
    · simp only [applyChange, hl, if_neg hl]
      exact List.Sublist.cons₂ l ih

theorem applyChange_zero_removes {side : List Level} {p : ℚ}
    (h : (pricesOf side).Nodup) : p ∉ pricesOf (applyChange side ⟨p, 0⟩) := by
  induction side with
  | nil => simp [applyChange, pricesOf]
  | cons l rest ih =>
    simp only [pricesOf, List.map_cons, List.nodup_cons] at h
    by_cases hl : l.price = p
    · simp only [applyChange, hl, if_pos rfl, if_pos]
      rw [← hl]
      exact h.1
    · have heq : applyChange (l :: rest) ⟨p, 0⟩ = l :: applyChange rest ⟨p, 0⟩ := by
        simp [applyChange, hl]
      rw [heq]
      simp only [pricesOf, List.map_cons, List.mem_cons, not_or]
      exact ⟨fun hc => hl hc.symm, ih h.2⟩

theorem applyChange_append_of_not_mem {side : List Level} {p q : ℚ}
    (hq : q ≠ 0) (h : p ∉ pricesOf side) :
    applyChange side ⟨p, q⟩ = side ++ [⟨p, q⟩] := by
  induction side with
  | nil => simp [applyChange, hq]
  | cons l rest ih =>
    simp only [pricesOf, List.map_cons, List.mem_cons, not_or] at h
    have hne : ¬ l.price = p := fun hc => h.1 hc.symm
    simp [applyChange, hne, ih h.2]

theorem applyChange_overwrite {side : List Level} {p q : ℚ}
    (hq : q ≠ 0) (h : p ∈ pricesOf side) :
    pricesOf (applyChange side ⟨p, q⟩) = pricesOf side ∧
    qtyAt (applyChange side ⟨p, q⟩) p = some q ∧
    ∀ l ∈ side, l.price ≠ p → l ∈ applyChange side ⟨p, q⟩ := by
  induction side with
  | nil => simp [pricesOf] at h
  | cons l rest ih =>
    by_cases hl : l.price = p
    · simp only [applyChange, hl, if_pos rfl, if_neg hq]
      refine ⟨by simp [pricesOf, hl], ?_, ?_⟩
      · simp [qtyAt, List.find?_cons, hl]
      · intro l' hl' hne
        rcases List.mem_cons.mp hl' with h1 | h1
        · exact absurd (h1 ▸ hl) hne
        · exact List.mem_cons_of_mem _ h1
    · have hmem : p ∈ pricesOf rest := by
        simp only [pricesOf, List.map_cons, List.mem_cons] at h
        exact h.resolve_left (fun hc => hl hc.symm)
      obtain ⟨ih1, ih2, ih3⟩ := ih hmem
      simp only [applyChange, hl, if_neg hl]
      refine ⟨?_, ?_, ?_⟩
      · simp only [pricesOf, List.map_cons]
        exact congrArg (List.cons l.price) ih1
      · have : (l.price == p) = false := by simp [hl]
        simp [qtyAt, List.find?_cons, this]
        simpa [qtyAt] using ih2
      · intro l' hl' hne
        rcases List.mem_cons.mp hl' with h1 | h1
        · exact h1 ▸ List.mem_cons_self _ _
        · exact List.mem_cons_of_mem _ (ih3 l' h1 hne)

/-- C4: per changed price level, a zero-quantity change removes the level if
its price is present and is a no-op if it is absent (the result is a
sublist of the old side, so no zero- or negative-quantity entry is ever
produced by a removal), while a positive-quantity change appends the level
when the price is absent and overwrites the stored quantity of the first
occurrence when it is present, keeping every other entry. -/
theorem applyChange_level_semantics (side : List Level) (p q : ℚ) :
    (q = 0 →
      (p ∉ pricesOf side → applyChange side ⟨p, q⟩ = side) ∧
      (applyChange side ⟨p, q⟩).Sublist side ∧
      ((pricesOf side).Nodup → p ∉ pricesOf (applyChange side ⟨p, q⟩))) ∧
    (0 < q →
      (p ∉ pricesOf side → applyChange side ⟨p, q⟩ = side ++ [⟨p, q⟩]) ∧
      (p ∈ pricesOf side →
        pricesOf (applyChange side ⟨p, q⟩) = pricesOf side ∧
        qtyAt (applyChange side ⟨p, q⟩) p = some q ∧
        ∀ l ∈ side, l.price ≠ p → l ∈ applyChange side ⟨p, q⟩)) := by
  constructor
  · intro hq
    subst hq
    exact ⟨fun h => applyChange_eq_of_not_mem 0 h rfl,
      applyChange_zero_sublist side p, fun h => applyChange_zero_removes h⟩
  · intro hq
    exact ⟨applyChange_append_of_not_mem (ne_of_gt hq),
      applyChange_overwrite (ne_of_gt hq)⟩

/-- Witness for C4 at concrete inputs: removing price 5 from a two-level
side leaves price 5 absent, and inserting absent price 7 appends it. -/
theorem applyChange_level_semantics_witness :
    (5 : ℚ) ∉ pricesOf (applyChange [⟨5, 1⟩, ⟨6, 2⟩] ⟨5, 0⟩) ∧
    applyChange [⟨5, 1⟩] ⟨7, 3⟩ = [⟨5, 1⟩] ++ [⟨7, 3⟩] := by
  have h1 := applyChange_level_semantics [⟨5, 1⟩, ⟨6, 2⟩] 5 0
  have h2 := applyChange_level_semantics [⟨5, 1⟩] 7 3
  exact ⟨(h1.1 rfl).2.2 (by decide), (h2.2 (by norm_num)).1 (by decide)⟩

theorem price_mem_applyChange {b c : Level} :
    ∀ {side : List Level}, b ∈ applyChange side c →
      b.price ∈ pricesOf side ∨ b.price = c.price := by
  intro side
  induction side with
  | nil =>
    intro hb
    by_cases hq : c.qty = 0
    · simp [applyChange, hq] at hb
    · simp [applyChange, hq] at hb
      exact Or.inr (by rw [hb])
  | cons l rest ih =>
    intro hb
    by_cases hl : l.price = c.price
    · by_cases hq : c.qty = 0
      · simp only [applyChange, hl, if_pos rfl, if_pos hq] at hb
        exact Or.inl (by simp [pricesOf]; exact Or.inr ⟨b, hb, rfl⟩)
      · simp only [applyChange, hl, if_pos rfl, if_neg hq] at hb
        rcases List.mem_cons.mp hb with h1 | h1
        · exact Or.inr (by rw [h1])
        · exact Or.inl (by simp [pricesOf]; exact Or.inr ⟨b, h1, rfl⟩)
    · simp only [applyChange, if_neg hl] at hb
      rcases List.mem_cons.mp hb with h1 | h1
      · exact Or.inl (by simp [pricesOf, h1])
      · rcases ih h1 with h2 | h2
        · exact Or.inl (by simp [pricesOf] at h2 ⊢; exact Or.inr h2)
        · exact Or.inr h2

theorem distinctPrices_applyChange (c : Level) :
    ∀ {side : List Level}, distinctPrices side →
      distinctPrices (applyChange side c) := by
  intro side
  induction side with
  | nil =>
    intro _
    by_cases hq : c.qty = 0 <;> simp [applyChange, hq, distinctPrices]
  | cons l rest ih =>
    intro h
    obtain ⟨hhead, hrest⟩ := List.pairwise_cons.mp h
    by_cases hl : l.price = c.price
    · by_cases hq : c.qty = 0
      · simp only [applyChange, hl, if_pos rfl, if_pos hq]
        exact hrest
      · simp only [applyChange, hl, if_pos rfl, if_neg hq, distinctPrices]
        exact List.pairwise_cons.mpr ⟨fun b hb => hl ▸ hhead b hb, hrest⟩
    · simp only [applyChange, if_neg hl, distinctPrices]
      refine List.pairwise_cons.mpr ⟨?_, ih hrest⟩
      intro b hb
      rcases price_mem_applyChange hb with h1 | h1
      · obtain ⟨x, hx, hxp⟩ := List.mem_map.mp h1
        exact hxp ▸ hhead x hx
      · exact h1 ▸ hl

theorem distinctPrices_foldl (cs : List Level) :
    ∀ {side : List Level}, distinctPrices side →
      distinctPrices (List.foldl applyChange side cs) := by
  induction cs with
  | nil => intro side h; simpa using h
  | cons c rest ih =>
    intro side h
    simpa using ih (distinctPrices_applyChange c h)

theorem distinct_of_strictDesc {side : List Level} (h : strictDesc side) :
    distinctPrices side :=
  (List.chain'_iff_pairwise.mp h).imp fun hab => ne_of_gt hab

theorem distinct_of_strictAsc {side : List Level} (h : strictAsc side) :
    distinctPrices side :=
  (List.chain'_iff_pairwise.mp h).imp fun hab => ne_of_lt hab

theorem strictDesc_mergeSort {l : List Level} (h : distinctPrices l) :
    strictDesc (l.mergeSort bidLe) := by
  have hdist : distinctPrices (l.mergeSort bidLe) :=
    (List.Perm.pairwise_iff (fun hxy => hxy.symm) (List.mergeSort_perm l bidLe)).mpr h
  have hsorted := @List.sorted_mergeSort _ bidLe
    (fun a b c h1 h2 => by
      simp only [bidLe, decide_eq_true_eq] at h1 h2 ⊢
      exact le_trans h2 h1)
    (fun a b => by
      simp only [bidLe, Bool.or_eq_true, decide_eq_true_eq]
      exact le_total b.price a.price)
    l
  refine List.Pairwise.chain' ((hsorted.and hdist).imp ?_)
  rintro a b ⟨h1, h2⟩
  simp only [bidLe, decide_eq_true_eq] at h1
  exact lt_of_le_of_ne h1 fun hc => h2 hc.symm

theorem strictAsc_mergeSort {l : List Level} (h : distinctPrices l) :
    strictAsc (l.mergeSort askLe) := by
  have hdist : distinctPrices (l.mergeSort askLe) :=
    (List.Perm.pairwise_iff (fun hxy => hxy.symm) (List.mergeSort_perm l askLe)).mpr h
  have hsorted := @List.sorted_mergeSort _ askLe
    (fun a b c h1 h2 => by
      simp only [askLe, decide_eq_true_eq] at h1 h2 ⊢
      exact le_trans h1 h2)
    (fun a b => by
      simp only [askLe, Bool.or_eq_true, decide_eq_true_eq]
      exact le_total a.price b.price)
    l
  refine List.Pairwise.chain' ((hsorted.and hdist).imp ?_)
  rintro a b ⟨h1, h2⟩
  simp only [askLe, decide_eq_true_eq] at h1
  exact lt_of_le_of_ne h1 h2

theorem sortedBook_applyDeltas (book : Book) (h : sortedBook book)
    (bs as : List Level) : sortedBook (applyDeltas book bs as) := by
  obtain ⟨hb, ha⟩ := h
  exact ⟨strictDesc_mergeSort (distinctPrices_foldl bs (distinct_of_strictDesc hb)),
    strictAsc_mergeSort (distinctPrices_foldl as (distinct_of_strictAsc ha))⟩

/-- C5: after any sequence of `_resetOrderBook` snapshot replacements and
`_applyDeltas` calls, starting from a book satisfying the sort invariant
and with every fetched snapshot itself sorted-strict (the exchange's depth
snapshot contract: bids descending, asks ascending, prices unique),
the replica's bids are strictly descending and its asks strictly ascending
by price, with no duplicate price on either side. -/
theorem replica_sort_invariant :
    ∀ (ops : List BookOp) (init : Book), sortedBook init →
      (∀ s, BookOp.snap s ∈ ops → sortedBook s) →
      sortedBook (List.foldl applyOp init ops) := by
  intro ops
  induction ops with
  | nil => intro init h _; simpa using h
  | cons op rest ih =>
    intro init hinit hsnaps
    cases op with
    | snap s =>
      simp only [List.foldl_cons]
      exact ih (resetOrderBook s) (hsnaps s (List.mem_cons_self _ _))
        fun s' hs' => hsnaps s' (List.mem_cons_of_mem _ hs')
    | delta bs as =>
      simp only [List.foldl_cons]
      exact ih _ (sortedBook_applyDeltas init hinit bs as)
        fun s' hs' => hsnaps s' (List.mem_cons_of_mem _ hs')

/-- Witness for C5: a sorted snapshot followed by a delta that removes one
bid level and inserts another still yields a strictly-sorted book. -/
theorem replica_sort_invariant_witness :
    sortedBook (List.foldl applyOp ⟨0, [], []⟩
      [BookOp.snap ⟨50, [⟨6, 1⟩, ⟨5, 1⟩], [⟨7, 1⟩, ⟨8, 1⟩]⟩,
       BookOp.delta [⟨6, 0⟩, ⟨4, 2⟩] [⟨7, 3⟩]]) := by
  refine replica_sort_invariant _ _ ⟨List.chain'_nil, List.chain'_nil⟩ ?_
  intro s hs
  simp only [List.mem_cons, List.not_mem_nil, or_false] at hs
  rcases hs with hs | hs
  · cases hs
    constructor <;>
      norm_num [strictDesc, strictAsc, bidGt, askLt, List.chain'_cons,
        List.chain'_singleton]
  · cases hs

end COB

namespace COB

/-- C1: a depth delta is applied to the replica exactly when
`U <= lastUpdateId + 1 <= u`, and right after such an application the
replica's `lastUpdateId` equals the delta's `u`; in every other case the
replica is untouched. -/
theorem depth_delta_applied_iff_continuity (book : Book) (d : DepthUpdate) :
    ((processDepthUpdate book d).2 = .applied ↔
      d.U ≤ book.lastUpdateId + 1 ∧ book.lastUpdateId + 1 ≤ d.u) ∧
    ((processDepthUpdate book d).2 = .applied →
      (processDepthUpdate book d).1 =
        { applyDeltas book d.b d.a with lastUpdateId := d.u } ∧
      (processDepthUpdate book d).1.lastUpdateId = d.u) ∧
    ((processDepthUpdate book d).2 ≠ .applied →
      (processDepthUpdate book d).1 = book) := by
  unfold processDepthUpdate
  by_cases h : d.U ≤ book.lastUpdateId + 1 ∧ book.lastUpdateId + 1 ≤ d.u
  · simp [h]
  · by_cases h2 : book.lastUpdateId + 1 < d.U <;> simp [h, h2]

/-- Witness for C1 at a concrete input: book with lastUpdateId 100, delta
with U = 100, u = 102 is applied and leaves lastUpdateId = 102. -/
theorem depth_delta_applied_iff_continuity_witness :
    (processDepthUpdate ⟨100, [⟨5, 1⟩], [⟨6, 1⟩]⟩ ⟨100, 102, [⟨5, 2⟩], []⟩).2 = .applied ∧
    (processDepthUpdate ⟨100, [⟨5, 1⟩], [⟨6, 1⟩]⟩ ⟨100, 102, [⟨5, 2⟩], []⟩).1.lastUpdateId = 102 := by
  have h := depth_delta_applied_iff_continuity ⟨100, [⟨5, 1⟩], [⟨6, 1⟩]⟩ ⟨100, 102, [⟨5, 2⟩], []⟩
  refine ⟨h.1.mpr (by decide), ?_⟩
  exact (h.2.1 (h.1.mpr (by decide))).2

theorem processDepthUpdate_gap (book : Book) (d : DepthUpdate)
    (hgap : book.lastUpdateId + 1 < d.U) :
    processDepthUpdate book d = (book, .gapResync) := by
  unfold processDepthUpdate
  have h1 : ¬ (d.U ≤ book.lastUpdateId + 1 ∧ book.lastUpdateId + 1 ≤ d.u) := by
    intro h; omega
  simp [h1, hgap]

/-- C2: on a sequence gap (`U > lastUpdateId + 1`) the handler leaves the
replica completely unchanged and takes the gapResync branch (which starts
`_resetOrderBook(symbol)`); when that fetch succeeds the new snapshot
replaces the book wholesale and `_broadcastResync` sends a resync message
carrying that new full book to every open client tagged with the symbol. -/
theorem gap_no_mutation_then_resync_broadcast (book : Book) (d : DepthUpdate)
    (hgap : book.lastUpdateId + 1 < d.U)
    (sym : String) (snapshot : Book) (clients : List Client) :
    processDepthUpdate book d = (book, .gapResync) ∧
    resetOrderBook snapshot = snapshot ∧
    ∀ c ∈ clients, c.symbol = sym → c.isOpen = true →
      (c.id, snapshot) ∈ broadcastResync clients sym (resetOrderBook snapshot) := by
  refine ⟨processDepthUpdate_gap book d hgap, rfl, ?_⟩
  · intro c hc hsym hopen
    unfold broadcastResync resetOrderBook
    refine List.mem_map_of_mem _ (List.mem_filter.mpr ⟨hc, ?_⟩)
    simp [hsym, hopen]

/-- Witness for C2: replica at lastUpdateId 100 receives a delta with
U = 105, u = 110; the book is unchanged, the resync branch fires, and the
one open matching client receives the freshly fetched snapshot. -/
theorem gap_no_mutation_then_resync_broadcast_witness :
    processDepthUpdate ⟨100, [⟨5, 1⟩], [⟨6, 1⟩]⟩ ⟨105, 110, [⟨5, 2⟩], []⟩ =
      (⟨100, [⟨5, 1⟩], [⟨6, 1⟩]⟩, .gapResync) ∧
    ((⟨7, "BTCUSDT", true⟩ : Client).id, (⟨110, [⟨5, 3⟩], [⟨6, 2⟩]⟩ : Book)) ∈
      broadcastResync [⟨7, "BTCUSDT", true⟩] "BTCUSDT"
        (resetOrderBook ⟨110, [⟨5, 3⟩], [⟨6, 2⟩]⟩) := by
  have h := gap_no_mutation_then_resync_broadcast ⟨100, [⟨5, 1⟩], [⟨6, 1⟩]⟩
    ⟨105, 110, [⟨5, 2⟩], []⟩ (by decide) "BTCUSDT" ⟨110, [⟨5, 3⟩], [⟨6, 2⟩]⟩
    [⟨7, "BTCUSDT", true⟩]
  exact ⟨h.1, h.2.2 ⟨7, "BTCUSDT", true⟩ (by simp) rfl rfl⟩

/-- C3: a well-formed delta (`U ≤ u`) whose `u` is below `lastUpdateId + 1`
is stale: the handler takes neither the apply branch nor the gap branch, so
the replica's bids, asks and lastUpdateId are untouched, nothing is
broadcast and no error is raised. -/
theorem stale_delta_is_noop (book : Book) (d : DepthUpdate)
    (hwf : d.U ≤ d.u) (hstale : d.u < book.lastUpdateId + 1) :
    processDepthUpdate book d = (book, .stale) := by
  unfold processDepthUpdate
  have h1 : ¬ (d.U ≤ book.lastUpdateId + 1 ∧ book.lastUpdateId + 1 ≤ d.u) := by
    intro h; omega
  have h2 : ¬ (book.lastUpdateId + 1 < d.U) := by omega
  simp [h1, h2]

/-- Witness for C3: replica at lastUpdateId 100 receives the already-covered
delta U = 95, u = 99; the handler returns the book unchanged with the stale
outcome. -/
theorem stale_delta_is_noop_witness :
    processDepthUpdate ⟨100, [⟨5, 1⟩], [⟨6, 1⟩]⟩ ⟨95, 99, [⟨5, 2⟩], []⟩ =
      (⟨100, [⟨5, 1⟩], [⟨6, 1⟩]⟩, .stale) :=
  stale_delta_is_noop ⟨100, [⟨5, 1⟩], [⟨6, 1⟩]⟩ ⟨95, 99, [⟨5, 2⟩], []⟩
    (by decide) (by decide)

end COB

namespace COB

theorem newestFirst_take {l : List Snap} (h : newestFirst l) (n : ℕ) :
    newestFirst (l.take n) :=
  List.Pairwise.chain'
    ((List.chain'_iff_pairwise.mp h).sublist (List.take_sublist n l))

theorem newestFirst_mergeSort_tsDesc (l : List Snap) :
    newestFirst (l.mergeSort tsDesc) := by
  have hsorted := @List.sorted_mergeSort _ tsDesc
    (fun a b c h1 h2 => by
      simp only [tsDesc, decide_eq_true_eq] at h1 h2 ⊢
      exact le_trans h2 h1)
    (fun a b => by
      simp only [tsDesc, Bool.or_eq_true, decide_eq_true_eq]
      exact le_total b.timestamp a.timestamp)
    l
  refine List.Pairwise.chain' (hsorted.imp ?_)
  intro a b hab
  simpa [tsDesc, tsGe] using hab

/-- C7 counterexample: with two stored snapshots (timestamps 2 then 1,
newest first exactly as `_saveSnapshot`'s unshift keeps them) and limit 2,
`getHistoricalData` returns them newest first, not oldest first as the
claim states. -/
theorem history_getter_not_oldest_first :
    getHistoricalData [⟨2, 20, [], []⟩, ⟨1, 10, [], []⟩] none 2 =
      [⟨2, 20, [], []⟩, ⟨1, 10, [], []⟩] ∧
    ¬ oldestFirst (getHistoricalData [⟨2, 20, [], []⟩, ⟨1, 10, [], []⟩] none 2) := by
  refine ⟨rfl, ?_⟩
  intro h
  rw [show getHistoricalData [⟨2, 20, [], []⟩, ⟨1, 10, [], []⟩] none 2 =
      [⟨2, 20, [], []⟩, ⟨1, 10, [], []⟩] from rfl] at h
  simp only [oldestFirst, tsLe, List.chain'_cons, List.chain'_singleton, and_true] at h
  omega

/-- C7 amended: `getHistoricalData` returns at most `limit` snapshots and
never errors when fewer exist, but the order is newest first (its caller
`_handleClient` reverses the list before sending), given the in-memory
store in its maintained newest-first order. -/
theorem history_getter_le_limit_and_newest_first
    (mem : List Snap) (disk : Option (List Snap)) (limit : ℕ)
    (hmem : newestFirst mem) :
    (getHistoricalData mem disk limit).length ≤ limit ∧
    newestFirst (getHistoricalData mem disk limit) := by
  constructor
  · unfold getHistoricalData
    rw [List.length_take]
    exact min_le_left _ _
  · unfold getHistoricalData
    by_cases hlen : mem.length < limit
    · rw [if_pos hlen]
      cases disk with
      | none => exact newestFirst_take hmem limit
      | some d => exact newestFirst_take (newestFirst_mergeSort_tsDesc _) limit
    · rw [if_neg hlen]
      exact newestFirst_take hmem limit

/-- Witness for amended C7 at a concrete input: two stored snapshots,
limit 1: one snapshot is returned, newest first. -/
theorem history_getter_le_limit_and_newest_first_witness :
    (getHistoricalData [⟨2, 20, [], []⟩, ⟨1, 10, [], []⟩] none 1).length ≤ 1 ∧
    newestFirst (getHistoricalData [⟨2, 20, [], []⟩, ⟨1, 10, [], []⟩] none 1) := by
  refine history_getter_le_limit_and_newest_first _ none 1 ?_
  simp only [newestFirst, tsGe, List.chain'_cons, List.chain'_singleton, and_true]
  omega

end COB

namespace COB

/-- C6 counterexample: one stored snapshot, limit 1, and one depth_update
broadcast processed by the event loop during the 50 ms pause between
historical_complete and the delayed `_sendSnapshotToClient` call.  The
subscriber was tagged for live updates before the backfill, so the message
right after historical_complete is that depth_update, not the
live_snapshot the claim requires. -/
theorem backfill_then_live_counterexample :
    ¬ claimedBackfillOrder
        (clientTrace [⟨10, 1, [], []⟩] none 1
          [.depthUpdate ⟨2, 3, [], []⟩] ⟨5, [], []⟩ []) 1 := by
  intro h
  obtain ⟨-, -, ⟨b, hb⟩, -⟩ := h
  have he : (clientTrace [⟨10, 1, [], []⟩] none 1
      [.depthUpdate ⟨2, 3, [], []⟩] ⟨5, [], []⟩ []).get? 2 =
      some (.depthUpdate ⟨2, 3, [], []⟩) := rfl
  rw [he] at hb
  simp at hb

/-- C6 amended: a subscriber connecting with limit N to a symbol holding at
least N stored snapshots receives exactly N historical messages with
sequence 1..N and total N, carrying the N most recent snapshots oldest
first, then one historical_complete, then zero or more depth_update/resync
messages delivered during the 50 ms snapshot pause, then exactly one
live_snapshot, then only depth_update/resync messages. -/
theorem backfill_then_live_amended
    (mem : List Snap) (disk : Option (List Snap)) (N : ℕ)
    (hN : 0 < N) (hlen : N ≤ mem.length)
    (pending live : List OutMsg) (book : Book)
    (hp : ∀ m ∈ pending, isLiveMsg m = true)
    (hl : ∀ m ∈ live, isLiveMsg m = true)
    (hmem : newestFirst mem) :
    ∃ hist : List Snap,
      hist.length = N ∧ oldestFirst hist ∧
      clientTrace mem disk N pending book live =
        (hist.enum.map fun is => OutMsg.historical (is.1 + 1) N is.2) ++
          [.historicalComplete] ++ pending ++ [.liveSnapshot book] ++ live ∧
      ∀ m ∈ pending ++ live, isLiveMsg m = true := by
  have hrevlen : (mem.take N).reverse.length = N := by
    rw [List.length_reverse, List.length_take]
    exact min_eq_left hlen
  refine ⟨(mem.take N).reverse, hrevlen, ?_, ?_, ?_⟩
  · rw [oldestFirst, List.chain'_reverse]
    exact newestFirst_take hmem N
  · have hfast : getHistoricalData mem disk N = mem.take N := by
      unfold getHistoricalData
      rw [if_neg (not_lt.mpr hlen)]
    simp only [clientTrace, hfast, backfillMsgs, hrevlen, List.append_assoc]
  · intro m hm
    rcases List.mem_append.mp hm with h | h
    · exact hp m h
    · exact hl m h

/-- Witness for amended C6: two stored snapshots, limit 1, one pending
depth_update and one later resync. -/
theorem backfill_then_live_amended_witness :
    ∃ hist : List Snap,
      hist.length = 1 ∧ oldestFirst hist ∧
      clientTrace [⟨2, 20, [], []⟩, ⟨1, 10, [], []⟩] none 1
          [.depthUpdate ⟨21, 22, [], []⟩] ⟨9, [], []⟩ [.resync ⟨30, [], []⟩] =
        (hist.enum.map fun is => OutMsg.historical (is.1 + 1) 1 is.2) ++
          [.historicalComplete] ++ [.depthUpdate ⟨21, 22, [], []⟩] ++
          [.liveSnapshot ⟨9, [], []⟩] ++ [.resync ⟨30, [], []⟩] ∧
      ∀ m ∈ ([.depthUpdate ⟨21, 22, [], []⟩] ++ [.resync ⟨30, [], []⟩] : List OutMsg),
        isLiveMsg m = true := by
  refine backfill_then_live_amended _ none 1 (by decide) (by decide) _ _ _
    (by decide) (by decide) ?_
  simp only [newestFirst, tsGe, List.chain'_cons, List.chain'_singleton, and_true]
  omega

end COB

namespace COB

/-- C8 counterexample: replica at lastUpdateId 100; two gap deltas arrive
while no snapshot fetch has completed.  The handler has no resyncing flag,
so each gap delta starts its own `_resetOrderBook` fetch: two fetches are
started before the first completes, where the claim allows at most one. -/
theorem gap_coalescing_counterexample :
    (∀ e ∈ ([.delta ⟨105, 110, [], []⟩, .delta ⟨106, 111, [], []⟩] : List FeedEv),
      ∀ s, e ≠ FeedEv.fetchComplete s) ∧
    ¬ ((runEvents ⟨100, [], []⟩
        [.delta ⟨105, 110, [], []⟩, .delta ⟨106, 111, [], []⟩]).2 ≤ 1) := by
  constructor
  · intro e he s
    simp only [List.mem_cons, List.not_mem_nil, or_false] at he
    rcases he with he | he <;> subst he <;> simp
  · decide

/-- C8 amended: gap signals are not coalesced.  While the fetch started by
a first gap delta is still in flight (so the replica's lastUpdateId is
unchanged), every further gap delta starts another snapshot fetch of its
own: two successive gap deltas start two fetches and leave the book
untouched. -/
theorem gap_signals_not_coalesced (book : Book) (d1 d2 : DepthUpdate)
    (h1 : book.lastUpdateId + 1 < d1.U) (h2 : book.lastUpdateId + 1 < d2.U) :
    runEvents book [.delta d1, .delta d2] = (book, 2) := by
  have p1 := processDepthUpdate_gap book d1 h1
  have p2 := processDepthUpdate_gap book d2 h2
  simp [runEvents, stepEv, p1, p2]

/-- Witness for amended C8 at the spec's resync scenario input
(lastUpdateId 100, gap deltas U = 105 and U = 106). -/
theorem gap_signals_not_coalesced_witness :
    runEvents ⟨100, [], []⟩
      [.delta ⟨105, 110, [], []⟩, .delta ⟨106, 111, [], []⟩] =
      (⟨100, [], []⟩, 2) :=
  gap_signals_not_coalesced ⟨100, [], []⟩ ⟨105, 110, [], []⟩ ⟨106, 111, [], []⟩
    (by decide) (by decide)

/-- C9 counterexample: two open subscribers of the same symbol, the first
of which fails on send.  The broadcast still reaches the second and never
crashes, but the failing connection is only logged: it is not closed and
remains in the client registry, where the claim requires it to be torn
down and removed. -/
theorem broadcast_failure_no_teardown_counterexample :
    (broadcastLiveUpdate
        [⟨1, "BTCUSDT", true, true⟩, ⟨2, "BTCUSDT", true, false⟩] "BTCUSDT").1 = [2] ∧
    (⟨1, "BTCUSDT", true, true⟩ : Sub) ∈
      (broadcastLiveUpdate
        [⟨1, "BTCUSDT", true, true⟩, ⟨2, "BTCUSDT", true, false⟩] "BTCUSDT").2 := by
  decide

/-- C9 amended: a send failure on one subscriber is caught per client and
only logged: every other matching open subscriber whose send does not fail
still receives the message and the broadcaster does not crash, but the
client registry is left exactly as it was — the failing connection is not
torn down or removed by the broadcaster. -/
theorem broadcast_failure_isolated_no_removal (clients : List Sub) (sym : String) :
    (∀ c ∈ clients, c.symbol = sym → c.isOpen = true → c.sendFails = false →
      c.id ∈ (broadcastLiveUpdate clients sym).1) ∧
    (broadcastLiveUpdate clients sym).2 = clients := by
  refine ⟨?_, rfl⟩
  intro c hc hsym hopen hfail
  unfold broadcastLiveUpdate
  refine List.mem_map_of_mem _ (List.mem_filter.mpr ⟨List.mem_filter.mpr ⟨hc, ?_⟩, ?_⟩)
  · simp [hsym, hopen]
  · simp [hfail]

/-- Witness for amended C9: with one failing and one healthy subscriber the
healthy one's id is delivered to and the registry is unchanged. -/
theorem broadcast_failure_isolated_no_removal_witness :
    (2 : ℕ) ∈ (broadcastLiveUpdate
      [⟨1, "BTCUSDT", true, true⟩, ⟨2, "BTCUSDT", true, false⟩] "BTCUSDT").1 ∧
    (broadcastLiveUpdate
      [⟨1, "BTCUSDT", true, true⟩, ⟨2, "BTCUSDT", true, false⟩] "BTCUSDT").2 =
      [⟨1, "BTCUSDT", true, true⟩, ⟨2, "BTCUSDT", true, false⟩] := by
  have h := broadcast_failure_isolated_no_removal
    [⟨1, "BTCUSDT", true, true⟩, ⟨2, "BTCUSDT", true, false⟩] "BTCUSDT"
  exact ⟨h.1 ⟨2, "BTCUSDT", true, false⟩ (by simp) rfl rfl rfl, h.2⟩

end COB

namespace COB

/-- C10: a client connecting with symbol XRPLUSD is registered against the
real symbol XRPUSDT with the masquerade flag; masquerading rewrites the
top-level `s` field and the nested `k.s` field (when present) to XRPLUSD
and touches nothing else; every open matching client with the flag
receives the masqueraded message and every one without it receives the
broadcast verbatim, both on the historical path and on the live path. -/
theorem xrplusd_masquerade_rewrite :
    registerSub "XRPLUSD" = ⟨"XRPUSDT", true⟩ ∧
    (∀ m : KMsg, (masqueradeMsg m).s = "XRPLUSD" ∧
      (∀ x, m.ks = some x → (masqueradeMsg m).ks = some "XRPLUSD") ∧
      (m.ks = none → (masqueradeMsg m).ks = none) ∧
      (masqueradeMsg m).rest = m.rest) ∧
    (∀ (clients : List PluginClient) (sym : String) (m : KMsg)
        (c : PluginClient), c ∈ clients →
      upperStr c.sub.symbol = upperStr sym → c.isOpen = true →
      (c.id, if c.sub.masquerade then masqueradeMsg m else m) ∈
        broadcastKline clients sym m) ∧
    (∀ lines : List KMsg, historicalSend true lines = lines.map masqueradeMsg ∧
      historicalSend false lines = lines) := by
  refine ⟨rfl, ?_, ?_, ?_⟩
  · intro m
    refine ⟨rfl, ?_, ?_, rfl⟩
    · intro x hx
      simp [masqueradeMsg, hx]
    · intro hx
      simp [masqueradeMsg, hx]
  · intro clients sym m c hc hsym hopen
    unfold broadcastKline
    refine List.mem_map_of_mem _ (List.mem_filter.mpr ⟨hc, ?_⟩)
    simp [hsym, hopen]
  · intro lines
    refine ⟨by simp [historicalSend], ?_⟩
    simp [historicalSend]

/-- Witness for C10: an open masqueraded client subscribed (internally) to
XRPUSDT receives the kline broadcast with both symbol fields rewritten. -/
theorem xrplusd_masquerade_rewrite_witness :
    ((1 : ℕ), masqueradeMsg ⟨"XRPUSDT", some "XRPUSDT", "rest"⟩) ∈
      broadcastKline [⟨1, ⟨"XRPUSDT", true⟩, true⟩] "xrpusdt"
        ⟨"XRPUSDT", some "XRPUSDT", "rest"⟩ ∧
    (masqueradeMsg ⟨"XRPUSDT", some "XRPUSDT", "rest"⟩).s = "XRPLUSD" := by
  have h := xrplusd_masquerade_rewrite
  have hmem := h.2.2.1 [⟨1, ⟨"XRPUSDT", true⟩, true⟩] "xrpusdt"
    ⟨"XRPUSDT", some "XRPUSDT", "rest"⟩ ⟨1, ⟨"XRPUSDT", true⟩, true⟩
    (by simp) (by decide) rfl
  exact ⟨by simpa using hmem, (h.2.1 ⟨"XRPUSDT", some "XRPUSDT", "rest"⟩).1⟩

end COB
